import Mathlib

/-!
Verification of the time-series audio emotion analysis engine of the
voice-edge-eval (emotion_ai) repository.

The repository ships the React frontend pages (`LiveAnalysis.js`,
`TimeSeries.js`, `Analytics.js` holding the Analytics and Configuration
components, and the app shell) together with its documentation.  The backend
engine components named by the specification (AudioChunker,
EmotionInferenceAdapter, SentimentClassifier, TimelineAssembler,
AggregationEngine, RizzScoreEngine, StreamingSessionManager) are not part of
the shipped sources; definitions for those components below are modelled from
the specification text and are marked `Modelled from the spec:` in their doc
comments.  Frontend behaviour (Rizz status rendering, the chunk-duration
selector, the Configuration page state machine, the sentiment-graph geometry)
is translated directly from the JavaScript sources.

JavaScript numbers are modelled as rationals (`ℚ`); a non-finite JavaScript
number (NaN or an infinity, which arises only from division by zero in the
code under study) is modelled as `Option.none`.
-/

namespace VoiceEdgeEval

/-- The three sentiment buckets.  The sources encode them as the integers
`1 / 0 / -1` (`TimeSeries.js`, `getSentimentLabel`) or as the strings
`positive / neutral / negative`; a sum type is used here. -/
inductive Sentiment
  | positive
  | neutral
  | negative
deriving DecidableEq, Repr

/-- Integer encoding of a sentiment used by `TimeSeries.js`
(`dominant_sentiment` is compared against `1` and `-1`). -/
def Sentiment.toInt : Sentiment → ℤ
  | .positive => 1
  | .neutral => 0
  | .negative => -1

/-- One scored emotion, as returned by the inference provider.
Spec data model: `EmotionScore: {name: string, score: float in [0,1]}`. -/
structure EmotionScore where
  name : String
  score : ℚ
deriving DecidableEq, Repr

/-- One entry of the fixed emotion list of the Configuration page.
Translated from `AVAILABLE_EMOTIONS` in `Analytics.js` (Configuration
component). -/
structure EmotionDef where
  name : String
  emoji : String
  category : Sentiment
deriving DecidableEq, Repr

/-- The fixed 15-emotion list of the Configuration page, translated from
`AVAILABLE_EMOTIONS` in `Analytics.js`: five positive, five negative and five
neutral emotions. -/
def AVAILABLE_EMOTIONS : List EmotionDef :=
  [⟨"Joy", "😊", .positive⟩,
   ⟨"Amusement", "😄", .positive⟩,
   ⟨"Satisfaction", "😌", .positive⟩,
   ⟨"Excitement", "🤩", .positive⟩,
   ⟨"Desire", "😍", .positive⟩,
   ⟨"Anger", "😠", .negative⟩,
   ⟨"Sadness", "😢", .negative⟩,
   ⟨"Anxiety", "😰", .negative⟩,
   ⟨"Fear", "😨", .negative⟩,
   ⟨"Distress", "😖", .negative⟩,
   ⟨"Calmness", "😌", .neutral⟩,
   ⟨"Interest", "🤔", .neutral⟩,
   ⟨"Surprise", "😲", .neutral⟩,
   ⟨"Contemplation", "🤨", .neutral⟩,
   ⟨"Determination", "😤", .neutral⟩]

/-- Modelled from the spec: the SentimentClassifier static lookup (spec 4.3).
Every emotion name maps to exactly one sentiment; the taxonomy table is the
category column of the repository emotion list; unrecognized names default to
`neutral` and never fail the pipeline.  The backend classifier source is not
shipped. -/
def emotionSentiment (name : String) : Sentiment :=
  match AVAILABLE_EMOTIONS.find? (fun e => e.name == name) with
  | some e => e.category
  | none => .neutral

/-! ## Rizz score status rendering (frontend, claim C1) -/

/-- Three-way status classification written exactly as the spec states it:
`value > 80 → positive`, `40 ≤ value ≤ 80 → neutral`, `value < 40 → negative`.
This definition follows the words of the spec and is compared against the
rendering functions translated from the frontend source. -/
def rizzStatusSpec (v : ℚ) : Sentiment :=
  if v > 80 then .positive
  else if 40 ≤ v ∧ v ≤ 80 then .neutral
  else .negative

/-- Translated from `getRizzColor` in `LiveAnalysis.js` (lines 139-143). -/
def getRizzColor (score : ℚ) : String :=
  if score > 80 then "#48bb78"
  else if score ≥ 40 then "#4299e1"
  else "#f56565"

/-- Translated from the Dashboard component in `LiveAnalysis.js` (line 383):
the conditional chain `rizzScore > 80 / rizzScore >= 40 / otherwise` selecting
the CSS class high, medium or low. -/
def rizzClass (v : ℚ) : String :=
  if v > 80 then "high"
  else if v ≥ 40 then "medium"
  else "low"

/-- Translated from the Dashboard component in `LiveAnalysis.js` (line 450):
the status text next to the Rizz meter. -/
def rizzStatusText (v : ℚ) : String :=
  if v > 80 then "😎 Positive Vibes!"
  else if v ≥ 40 then "😐 Neutral Energy"
  else "😔 Negative Energy"

/-- The color each sentiment bucket should render as. -/
def colorOfSentiment : Sentiment → String
  | .positive => "#48bb78"
  | .neutral => "#4299e1"
  | .negative => "#f56565"

/-- The CSS class each sentiment bucket should render as. -/
def classOfSentiment : Sentiment → String
  | .positive => "high"
  | .neutral => "medium"
  | .negative => "low"

/-- The status text each sentiment bucket should render as. -/
def textOfSentiment : Sentiment → String
  | .positive => "😎 Positive Vibes!"
  | .neutral => "😐 Neutral Energy"
  | .negative => "😔 Negative Energy"

/-- C1: The RizzScore status boundaries are exact for every score value: a
value strictly greater than 80 is positive, a value in `[40, 80]` (both
endpoints included) is neutral, and a value strictly below 40 is negative;
the color (`getRizzColor`), the CSS class (`rizzClass`) and the status text
(`rizzStatusText`) computed by the frontend all agree with this three-way
classification at every score value. -/
theorem c1_rizz_status_boundaries (v : ℚ) :
    getRizzColor v = colorOfSentiment (rizzStatusSpec v)
    ∧ rizzClass v = classOfSentiment (rizzStatusSpec v)
    ∧ rizzStatusText v = textOfSentiment (rizzStatusSpec v) := by
  unfold getRizzColor rizzClass rizzStatusText rizzStatusSpec
  by_cases h80 : v > 80
  · simp [h80, colorOfSentiment, classOfSentiment, textOfSentiment]
  · by_cases h40 : 40 ≤ v
    · have hle : v ≤ 80 := le_of_not_lt h80
      simp [h80, h40, hle, colorOfSentiment, classOfSentiment, textOfSentiment]
    · simp [h80, h40, colorOfSentiment, classOfSentiment, textOfSentiment]

/-! ## AudioChunker (claim C2) -/

/-- One temporal chunk of the audio input.  Spec data model:
`AudioChunk: {index: int, start: float(seconds), end: float(seconds),
samples: bytes}`.  The field `end` is a reserved word in Lean and is named
`stop` here; the raw sample bytes are opaque to every property below and are
omitted, chunk boundaries being expressed in seconds. -/
structure AudioChunk where
  index : ℕ
  start : ℚ
  stop : ℚ
deriving DecidableEq, Repr

/-- Modelled from the spec: the AudioChunker chunk count,
`ceil(total_duration / chunk_duration)` (spec 4.1), before the trailing-chunk
merge policy is applied.  The backend chunker source is not shipped. -/
def chunkCount (L d : ℚ) : ℕ := (⌈L / d⌉).toNat

/-- Whether the trailing-chunk merge policy applies: the trailing fragment
(the part of the audio after the second-to-last chunk boundary) is strictly
shorter than 20% of the chunk duration, and a previous chunk exists to merge
into. -/
def mergesTrailing (L d : ℚ) : Prop :=
  2 ≤ chunkCount L d ∧ L - ((chunkCount L d : ℚ) - 1) * d < d / 5

instance (L d : ℚ) : Decidable (mergesTrailing L d) := by
  unfold mergesTrailing; infer_instance

/-- Modelled from the spec: the AudioChunker (spec 4.1).  It produces
`ceil(L/d)` chunks `[i*d, (i+1)*d)` whose last chunk ends at the total
duration `L`; a trailing chunk strictly shorter than 20% of the chunk
duration is merged into the previous chunk, extending its end to `L`;
otherwise it is kept as its own shorter final chunk.  Indices start at 0.
The backend chunker source is not shipped. -/
def audioChunker (L d : ℚ) : List AudioChunk :=
  let n := chunkCount L d
  if mergesTrailing L d then
    (List.range (n - 1)).map (fun i =>
      ⟨i, (i : ℚ) * d, if i = n - 2 then L else ((i : ℚ) + 1) * d⟩)
  else
    (List.range n).map (fun i =>
      ⟨i, (i : ℚ) * d, min (((i : ℚ) + 1) * d) L⟩)

/-- The cast of `chunkCount` to `ℚ` is the ceiling itself once the input
duration and the chunk duration are positive. -/
lemma chunkCount_cast (L d : ℚ) (hL : 0 < L) (hd : 0 < d) :
    ((chunkCount L d : ℕ) : ℚ) = ((⌈L / d⌉ : ℤ) : ℚ) := by
  have hpos : 0 < ⌈L / d⌉ := Int.ceil_pos.mpr (div_pos hL hd)
  have h := Int.toNat_of_nonneg hpos.le
  exact_mod_cast congrArg (fun z : ℤ => (z : ℚ)) h

/-- Basic bounds for the chunk count: writing `n = chunkCount L d`, the total
duration satisfies `(n-1)*d < L ≤ n*d`, and `n ≥ 1`. -/
lemma chunkCount_bounds (L d : ℚ) (hL : 0 < L) (hd : 0 < d) :
    1 ≤ chunkCount L d
    ∧ ((chunkCount L d : ℚ) - 1) * d < L
    ∧ L ≤ (chunkCount L d : ℚ) * d := by
  have hpos : 0 < ⌈L / d⌉ := Int.ceil_pos.mpr (div_pos hL hd)
  have hcast := chunkCount_cast L d hL hd
  refine ⟨?_, ?_, ?_⟩
  · unfold chunkCount; omega
  · have h1 : (⌈L / d⌉ : ℚ) - 1 < L / d := by
      have := Int.ceil_lt_add_one (L / d)
      push_cast at this ⊢
      linarith
    rw [hcast]
    calc (((⌈L / d⌉ : ℤ) : ℚ) - 1) * d < (L / d) * d := by
          exact mul_lt_mul_of_pos_right h1 hd
      _ = L := by field_simp
  · have h2 : L / d ≤ (⌈L / d⌉ : ℚ) := Int.le_ceil (L / d)
    rw [hcast]
    calc L = (L / d) * d := by field_simp
      _ ≤ ((⌈L / d⌉ : ℤ) : ℚ) * d := mul_le_mul_of_nonneg_right h2 hd.le

/-- The chunk list of a positive-duration audio is never empty. -/
lemma audioChunker_length_pos (L d : ℚ) (hL : 0 < L) (hd : 0 < d) :
    0 < (audioChunker L d).length := by
  obtain ⟨hn1, -, -⟩ := chunkCount_bounds L d hL hd
  unfold audioChunker
  by_cases hm : mergesTrailing L d
  · have h2 := hm.1
    simp only [if_pos hm, List.length_map, List.length_range]
    omega
  · simp only [if_neg hm, List.length_map, List.length_range]
    omega

/-- The two branch shapes of `audioChunker`, stated once for reuse. -/
lemma audioChunker_eq_merge (L d : ℚ) (hm : mergesTrailing L d) :
    audioChunker L d = (List.range (chunkCount L d - 1)).map (fun i =>
      ⟨i, (i : ℚ) * d, if i = chunkCount L d - 2 then L else ((i : ℚ) + 1) * d⟩) := by
  simp only [audioChunker, if_pos hm]

/-- The no-merge branch shape of `audioChunker`. -/
lemma audioChunker_eq_keep (L d : ℚ) (hm : ¬ mergesTrailing L d) :
    audioChunker L d = (List.range (chunkCount L d)).map (fun i =>
      ⟨i, (i : ℚ) * d, min (((i : ℚ) + 1) * d) L⟩) := by
  simp only [audioChunker, if_neg hm]

/-- C2: For audio of positive total duration `L` and positive chunk duration
`d`, `audioChunker` produces exactly `ceil(L/d)` chunks except that a
trailing fragment strictly shorter than `0.2*d` is merged into the previous
chunk (one chunk fewer); the chunk list is non-empty, its indices are exactly
`0, 1, 2, ...` in order (strictly increasing from 0), every chunk has
`start < stop` (non-overlapping, each of positive width), consecutive chunks
are contiguous (`stop` of one equals `start` of the next), the first chunk
starts at 0 and the last chunk stops at `L`: the chunks cover `[0, L)`
exactly. -/
theorem c2_audio_chunker_layout (L d : ℚ) (hL : 0 < L) (hd : 0 < d) :
    0 < (audioChunker L d).length
    ∧ (audioChunker L d).length =
        (if mergesTrailing L d then chunkCount L d - 1 else chunkCount L d)
    ∧ (∀ i (hi : i < (audioChunker L d).length),
        ((audioChunker L d).get ⟨i, hi⟩).index = i)
    ∧ (∀ i (hi : i < (audioChunker L d).length),
        ((audioChunker L d).get ⟨i, hi⟩).start < ((audioChunker L d).get ⟨i, hi⟩).stop)
    ∧ (∀ i (hi2 : i < (audioChunker L d).length) (hi : i + 1 < (audioChunker L d).length),
        ((audioChunker L d).get ⟨i, hi2⟩).stop = ((audioChunker L d).get ⟨i + 1, hi⟩).start)
    ∧ (∀ h0 : 0 < (audioChunker L d).length,
        ((audioChunker L d).get ⟨0, h0⟩).start = 0)
    ∧ (∀ h0 : 0 < (audioChunker L d).length,
        ((audioChunker L d).get
          ⟨(audioChunker L d).length - 1, Nat.sub_lt h0 Nat.one_pos⟩).stop = L) := by
  obtain ⟨hn1, hfrag, hle⟩ := chunkCount_bounds L d hL hd
  by_cases hm : mergesTrailing L d
  · -- merge branch
    have h2n : 2 ≤ chunkCount L d := hm.1
    have hlist := audioChunker_eq_merge L d hm
    have hlen : (audioChunker L d).length = chunkCount L d - 1 := by
      rw [hlist]; simp
    -- numeric helper: the start of chunk i is strictly below L
    have hstartL : ∀ i : ℕ, i < chunkCount L d - 1 → (i : ℚ) * d < L := by
      intro i hi
      have hle2 : (i : ℚ) ≤ (chunkCount L d : ℚ) - 1 := by
        have : i + 1 ≤ chunkCount L d := by omega
        have := Nat.cast_le (α := ℚ) |>.mpr this
        push_cast at this
        linarith
      calc (i : ℚ) * d ≤ ((chunkCount L d : ℚ) - 1) * d :=
            mul_le_mul_of_nonneg_right hle2 hd.le
        _ < L := hfrag
    refine ⟨?_, ?_, ?_, ?_, ?_, ?_, ?_⟩
    · rw [hlen]; omega
    · rw [hlen, if_pos hm]
    · intro i hi
      simp [hlist, List.get_eq_getElem]
    · intro i hi
      have hi2 : i < chunkCount L d - 1 := by rw [← hlen]; exact hi
      simp only [hlist, List.get_eq_getElem, List.getElem_map, List.getElem_range]
      by_cases he : i = chunkCount L d - 2
      · simp only [he, if_pos rfl]
        exact hstartL _ (by omega)
      · simp only [if_neg he]
        have : (i : ℚ) * d < ((i : ℚ) + 1) * d := by nlinarith
        simpa using this
    · intro i hi2 hi
      have hilt : i + 1 < chunkCount L d - 1 := by rw [← hlen]; exact hi
      simp only [hlist, List.get_eq_getElem, List.getElem_map, List.getElem_range]
      have he : i ≠ chunkCount L d - 2 := by omega
      simp only [if_neg he]
      push_cast
      ring
    · intro h0
      simp [hlist, List.get_eq_getElem]
    · intro h0
      have hlast : chunkCount L d - 1 - 1 = chunkCount L d - 2 := by omega
      simp only [hlist, List.get_eq_getElem, List.getElem_map, List.getElem_range,
        List.length_map, List.length_range]
      rw [hlast, if_pos rfl]
  · -- keep branch
    have hlist := audioChunker_eq_keep L d hm
    have hlen : (audioChunker L d).length = chunkCount L d := by
      rw [hlist]; simp
    have hboundd : ∀ i : ℕ, i + 1 ≤ chunkCount L d → ((i : ℚ) + 1) * d ≤ (chunkCount L d : ℚ) * d := by
      intro i hi
      have : ((i : ℚ) + 1) ≤ (chunkCount L d : ℚ) := by
        have := Nat.cast_le (α := ℚ) |>.mpr hi
        push_cast at this
        linarith
      exact mul_le_mul_of_nonneg_right this hd.le
    have hstrict : ∀ i : ℕ, i + 1 < chunkCount L d → ((i : ℚ) + 1) * d < L := by
      intro i hi
      have : ((i : ℚ) + 1) ≤ (chunkCount L d : ℚ) - 1 := by
        have h2 : i + 2 ≤ chunkCount L d := by omega
        have := Nat.cast_le (α := ℚ) |>.mpr h2
        push_cast at this
        linarith
      calc ((i : ℚ) + 1) * d ≤ ((chunkCount L d : ℚ) - 1) * d :=
            mul_le_mul_of_nonneg_right this hd.le
        _ < L := hfrag
    refine ⟨?_, ?_, ?_, ?_, ?_, ?_, ?_⟩
    · rw [hlen]; omega
    · rw [hlen, if_neg hm]
    · intro i hi
      simp [hlist, List.get_eq_getElem]
    · intro i hi
      have hi2 : i < chunkCount L d := by rw [← hlen]; exact hi
      simp only [hlist, List.get_eq_getElem, List.getElem_map, List.getElem_range]
      apply lt_min
      · nlinarith
      · -- start of chunk i is strictly below L
        have hle2 : (i : ℚ) ≤ (chunkCount L d : ℚ) - 1 := by
          have : i + 1 ≤ chunkCount L d := hi2
          have := Nat.cast_le (α := ℚ) |>.mpr this
          push_cast at this
          linarith
        calc (i : ℚ) * d ≤ ((chunkCount L d : ℚ) - 1) * d :=
              mul_le_mul_of_nonneg_right hle2 hd.le
          _ < L := hfrag
    · intro i hi2 hi
      have hilt : i + 1 < chunkCount L d := by rw [← hlen]; exact hi
      simp only [hlist, List.get_eq_getElem, List.getElem_map, List.getElem_range]
      rw [min_eq_left (le_of_lt (hstrict i hilt))]
      push_cast
      ring
    · intro h0
      simp [hlist, List.get_eq_getElem]
    · intro h0
      have h1n : 1 ≤ chunkCount L d := hn1
      simp only [hlist, List.get_eq_getElem, List.getElem_map, List.getElem_range,
        List.length_map, List.length_range]
      rw [min_eq_right]
      have : ((chunkCount L d - 1 : ℕ) : ℚ) + 1 = (chunkCount L d : ℚ) := by
        push_cast [Nat.cast_sub h1n]
        ring
      rw [this]
      exact hle

/-- Witness for C2: the spec scenario of a 10.8-second audio with 5-second
chunks has a 0.8-second trailing fragment, 16% of the chunk duration, which
is merged: 2 chunks result. -/
theorem c2_audio_chunker_layout_witness : (audioChunker (54/5 : ℚ) 5).length = 2 := by
  have h := c2_audio_chunker_layout (54/5 : ℚ) 5 (by norm_num) (by norm_num)
  have hceil : ⌈(54/5 : ℚ) / 5⌉ = 3 := by
    rw [Int.ceil_eq_iff]
    norm_num
  have hcc : chunkCount (54/5 : ℚ) 5 = 3 := by
    unfold chunkCount
    rw [hceil]
    rfl
  have hmt : mergesTrailing (54/5 : ℚ) 5 := by
    unfold mergesTrailing
    rw [hcc]
    norm_num
  rw [h.2.1, if_pos hmt, hcc]

/-! ## ChunkResult and the AggregationEngine (claim C3) -/

/-- Per-chunk analysis result.  Spec data model: `ChunkResult: {chunk_index,
start, end, emotions (desc by score), dominant_sentiment: {-1,0,1},
sentiment_score, failed}`.  The integer-coded dominant sentiment is modelled
by the `Sentiment` sum type (`Sentiment.toInt` recovers the encoding); `end`
is named `stop` as in `AudioChunk`. -/
structure ChunkResult where
  chunk_index : ℕ
  start : ℚ
  stop : ℚ
  emotions : List EmotionScore
  dominant_sentiment : Sentiment
  sentiment_score : ℚ
  failed : Bool
deriving DecidableEq, Repr

/-- One aggregated emotion row of the summary.  Spec data model:
`top_emotions: ordered sequence of {name, average_score, count, sentiment}`. -/
structure TopEmotion where
  name : String
  average_score : ℚ
  count : ℕ
  sentiment : Sentiment
deriving DecidableEq, Repr

/-- Whole-file aggregation summary.  Spec data model: `AggregationSummary:
{positive_pct, neutral_pct, negative_pct, dominant, top_emotions}`. -/
structure AggregationSummary where
  positive_pct : ℚ
  neutral_pct : ℚ
  negative_pct : ℚ
  dominant : Sentiment
  top_emotions : List TopEmotion
deriving DecidableEq, Repr

/-- The aggregation failure of spec 4.5: raised only when the timeline holds
zero chunks. -/
inductive AggError
  | emptyTimelineError
deriving DecidableEq, Repr

/-- Number of chunks of a list whose dominant sentiment is `s`. -/
def countSentiment (s : Sentiment) (l : List ChunkResult) : ℕ :=
  (l.filter (fun c => decide (c.dominant_sentiment = s))).length

/-- Insertion step for a descending insertion sort keyed by a rational. -/
def insertByDesc {α : Type} (key : α → ℚ) (a : α) : List α → List α
  | [] => [a]
  | x :: xs => if key x < key a then a :: x :: xs else x :: insertByDesc key a xs

/-- Sort a list in descending key order (stable on equal keys). -/
def sortByDesc {α : Type} (key : α → ℚ) (l : List α) : List α :=
  l.foldr (insertByDesc key) []

/-- Modelled from the spec: the overall dominant bucket of spec 4.5 — the
bucket with the highest percentage, ties broken in the order
`positive > neutral > negative`. -/
def dominantOverall (pp np gp : ℚ) : Sentiment :=
  if np ≤ pp ∧ gp ≤ pp then .positive
  else if gp ≤ np then .neutral
  else .negative

/-- Modelled from the spec: the `top_emotions` computation of spec 4.5 —
across the emotions of the non-failed chunks, group by name, compute the
appearance count and the mean score, sort descending by average score, cap at
the top 10. -/
def topEmotions (ok : List ChunkResult) : List TopEmotion :=
  let all := (ok.map ChunkResult.emotions).flatten
  let names := (all.map EmotionScore.name).dedup
  let entries := names.map (fun nm =>
    let scores := (all.filter (fun e => e.name == nm)).map EmotionScore.score
    (⟨nm, scores.sum / (scores.length : ℚ), scores.length, emotionSentiment nm⟩ : TopEmotion))
  (sortByDesc TopEmotion.average_score entries).take 10

/-- Modelled from the spec: the AggregationEngine (spec 4.5).  Over non-failed
chunks only, the three percentages bucket-count the dominant sentiment; the
overall dominant is the highest bucket with tie-break
`positive > neutral > negative`; if every chunk failed the summary is
all-zero with dominant `neutral` by convention and empty `top_emotions`; an
`EmptyTimelineError` is raised only for a timeline with zero chunks.  The
backend aggregation source is not shipped. -/
def aggregate (timeline : List ChunkResult) : Except AggError AggregationSummary :=
  if timeline.length = 0 then .error .emptyTimelineError
  else
    let ok := timeline.filter (fun c => !c.failed)
    if ok.length = 0 then .ok ⟨0, 0, 0, .neutral, []⟩
    else
      let n : ℚ := ok.length
      let pp := (countSentiment .positive ok : ℚ) / n * 100
      let np := (countSentiment .neutral ok : ℚ) / n * 100
      let gp := (countSentiment .negative ok : ℚ) / n * 100
      .ok ⟨pp, np, gp, dominantOverall pp np gp, topEmotions ok⟩

/-- The three sentiment buckets partition any chunk list. -/
lemma countSentiment_partition (l : List ChunkResult) :
    countSentiment .positive l + countSentiment .neutral l + countSentiment .negative l
      = l.length := by
  induction l with
  | nil => rfl
  | cons c t ih =>
    unfold countSentiment at ih ⊢
    cases h : c.dominant_sentiment <;> simp [List.filter_cons, h] <;> omega

/-- C3: For every complete timeline handed to the AggregationEngine: if at
least one chunk is non-failed, the three bucket-counted sentiment percentages
sum to exactly 100 (hence within any floating tolerance such as 0.01); if
every chunk failed, the engine returns — with no exception — the summary with
all three percentages zero, dominant `neutral`, and empty `top_emotions`. -/
theorem c3_aggregation_percentages (timeline : List ChunkResult)
    (hne : timeline ≠ []) :
    ((∃ c ∈ timeline, c.failed = false) →
      ∃ s, aggregate timeline = .ok s
        ∧ s.positive_pct + s.neutral_pct + s.negative_pct = 100)
    ∧ ((∀ c ∈ timeline, c.failed = true) →
      aggregate timeline = .ok ⟨0, 0, 0, .neutral, []⟩) := by
  have hlen : timeline.length ≠ 0 := by
    simpa [List.length_eq_zero] using hne
  constructor
  · rintro ⟨c, hc, hcf⟩
    have hmem : c ∈ timeline.filter (fun c => !c.failed) := by
      rw [List.mem_filter]
      exact ⟨hc, by simp [hcf]⟩
    have hok : (timeline.filter (fun c => !c.failed)).length ≠ 0 := by
      intro h
      rw [List.length_eq_zero] at h
      rw [h] at hmem
      exact List.not_mem_nil c hmem
    have hcast : ((timeline.filter (fun c => !c.failed)).length : ℚ) ≠ 0 := by
      exact_mod_cast hok
    have hpart := countSentiment_partition (timeline.filter (fun c => !c.failed))
    have hpartQ : ((countSentiment .positive (timeline.filter (fun c => !c.failed)) : ℕ) : ℚ)
        + (countSentiment .neutral (timeline.filter (fun c => !c.failed)) : ℕ)
        + (countSentiment .negative (timeline.filter (fun c => !c.failed)) : ℕ)
        = ((timeline.filter (fun c => !c.failed)).length : ℚ) := by
      exact_mod_cast hpart
    simp only [aggregate]
    rw [if_neg hlen, if_neg hok]
    refine ⟨_, rfl, ?_⟩
    dsimp only
    field_simp
    linarith
  · intro hall
    have hok : (timeline.filter (fun c => !c.failed)).length = 0 := by
      rw [List.length_eq_zero, List.filter_eq_nil_iff]
      intro c hc
      simp [hall c hc]
    simp only [aggregate]
    rw [if_neg hlen, if_pos hok]

/-- Witness for C3: a concrete two-chunk timeline with one failed chunk — the
percentages over the single non-failed chunk sum to 100. -/
theorem c3_aggregation_percentages_witness :
    ∃ s, aggregate
        [⟨0, 0, 5, [⟨"Joy", 9/10⟩], .positive, 9/10, false⟩,
         ⟨1, 5, 10, [], .neutral, 0, true⟩] = .ok s
      ∧ s.positive_pct + s.neutral_pct + s.negative_pct = 100 :=
  (c3_aggregation_percentages
      [⟨0, 0, 5, [⟨"Joy", 9/10⟩], .positive, 9/10, false⟩,
       ⟨1, 5, 10, [], .neutral, 0, true⟩]
      (List.cons_ne_nil _ _)).1
    ⟨⟨0, 0, 5, [⟨"Joy", 9/10⟩], .positive, 9/10, false⟩, List.mem_cons_self _ _, rfl⟩

/-! ## TimelineAssembler (claim C4) -/

/-- Modelled from the spec: the slot-filling core of the TimelineAssembler
(spec 4.4 and design note 9): index-tagged results are collected into a
fixed-size slot array sized by the chunk count; slot `i` is filled by the
first reported result carrying `chunk_index = i`; emission happens only once
every slot is filled (`none` while any slot is still empty).  The backend
assembler source is not shipped. -/
def fillSlots (results : List ChunkResult) : ℕ → Option (List ChunkResult)
  | 0 => some []
  | n + 1 =>
    match fillSlots results n, results.find? (fun r => r.chunk_index == n) with
    | some t, some r => some (t ++ [r])
    | _, _ => none

/-- Modelled from the spec: the TimelineAssembler (spec 4.4).  `n` is the
chunk count reported by the AudioChunker; `results` is the bag of
`ChunkResult`s in arbitrary completion order. -/
def assembleTimeline (n : ℕ) (results : List ChunkResult) : Option (List ChunkResult) :=
  fillSlots results n

/-- Slot filling succeeds whenever every index below `n` is reported, and the
emitted list has the slot indices in place. -/
lemma fillSlots_complete (results : List ChunkResult) (n : ℕ)
    (hcov : ∀ i < n, ∃ r ∈ results, r.chunk_index = i) :
    ∃ t, fillSlots results n = some t
      ∧ t.length = n
      ∧ ∀ k (hk : k < t.length), (t.get ⟨k, hk⟩).chunk_index = k := by
  induction n with
  | zero => exact ⟨[], rfl, rfl, fun k hk => absurd hk (by simp)⟩
  | succ n ih =>
    obtain ⟨t, hfill, hlen, hidx⟩ := ih (fun i hi => hcov i (Nat.lt_succ_of_lt hi))
    have hfind : (results.find? (fun r => r.chunk_index == n)).isSome := by
      rw [List.find?_isSome]
      obtain ⟨r, hr, hri⟩ := hcov n (Nat.lt_succ_self n)
      exact ⟨r, hr, by simp [hri]⟩
    obtain ⟨r, hr⟩ := Option.isSome_iff_exists.mp hfind
    have hrn : r.chunk_index = n := by
      have := List.find?_some hr
      simpa using this
    refine ⟨t ++ [r], ?_, ?_, ?_⟩
    · simp only [fillSlots, hfill, hr]
    · simp [hlen]
    · intro k hk
      simp only [List.length_append, List.length_cons, List.length_nil, hlen] at hk
      simp only [List.get_eq_getElem]
      by_cases hkn : k < t.length
      · rw [List.getElem_append_left hkn]
        exact hidx k hkn
      · have hkeq : k = t.length := by omega
        subst hkeq
        simp [hrn, hlen]

/-- C4: For every batch analysis over audio of duration `L` with chunk
duration `d`, and for every bag of per-chunk results — in arbitrary
completion order, failed placeholders included — that reports every chunk
index dispatched by the AudioChunker, the assembled Timeline is emitted, has
length exactly the AudioChunker chunk count, carries chunk index `k` at
position `k` (hence no duplicate and no missing index), and is sorted
strictly ascending by `chunk_index`: for all positions `i < j`,
`timeline[i].chunk_index < timeline[j].chunk_index`. -/
theorem c4_timeline_assembly (L d : ℚ) (results : List ChunkResult)
    (hcov : ∀ i < (audioChunker L d).length, ∃ r ∈ results, r.chunk_index = i) :
    ∃ t, assembleTimeline (audioChunker L d).length results = some t
      ∧ t.length = (audioChunker L d).length
      ∧ (∀ k (hk : k < t.length), (t.get ⟨k, hk⟩).chunk_index = k)
      ∧ ∀ i j (hi : i < t.length) (hj : j < t.length), i < j →
          (t.get ⟨i, hi⟩).chunk_index < (t.get ⟨j, hj⟩).chunk_index := by
  obtain ⟨t, hfill, hlen, hidx⟩ := fillSlots_complete results (audioChunker L d).length hcov
  exact ⟨t, hfill, hlen, hidx, fun i j hi hj hij => by rw [hidx i hi, hidx j hj]; exact hij⟩

/-- Witness for C4: the spec scenario of a 12-second audio in 5-second chunks
(3 chunks, the 2-second fragment is 40% of the chunk duration and kept), with
the three per-chunk results — the middle one failed — completing in reversed
order. -/
theorem c4_timeline_assembly_witness :
    ∃ t, assembleTimeline (audioChunker 12 5).length
        [⟨2, 10, 12, [], .neutral, 0, false⟩,
         ⟨1, 5, 10, [], .neutral, 0, true⟩,
         ⟨0, 0, 5, [⟨"Joy", 9/10⟩], .positive, 9/10, false⟩] = some t
      ∧ t.length = (audioChunker 12 5).length
      ∧ (∀ k (hk : k < t.length), (t.get ⟨k, hk⟩).chunk_index = k)
      ∧ ∀ i j (hi : i < t.length) (hj : j < t.length), i < j →
          (t.get ⟨i, hi⟩).chunk_index < (t.get ⟨j, hj⟩).chunk_index := by
  apply c4_timeline_assembly 12 5
  have hceil : ⌈(12 : ℚ) / 5⌉ = 3 := by
    rw [Int.ceil_eq_iff]
    norm_num
  have hcc : chunkCount (12 : ℚ) 5 = 3 := by
    unfold chunkCount
    rw [hceil]
    rfl
  have hmt : ¬ mergesTrailing (12 : ℚ) 5 := by
    unfold mergesTrailing
    rw [hcc]
    norm_num
  have hlen3 : (audioChunker (12 : ℚ) 5).length = 3 := by
    rw [audioChunker_eq_keep 12 5 hmt]
    simp [hcc]
  rw [hlen3]
  intro i hi
  interval_cases i
  · exact ⟨⟨0, 0, 5, [⟨"Joy", 9/10⟩], .positive, 9/10, false⟩, by simp, rfl⟩
  · exact ⟨⟨1, 5, 10, [], .neutral, 0, true⟩, by simp, rfl⟩
  · exact ⟨⟨2, 10, 12, [], .neutral, 0, false⟩, by simp, rfl⟩

/-! ## EmotionInferenceAdapter and the batch request pipeline (claims C5, C8) -/

/-- Outcome of one external inference call on one chunk: the provider either
answers with an ordered emotion list, times out, or errors.  Spec 6 treats
the provider as a black box `score(chunk) -> ordered emotions | error`; spec
7 distinguishes `InferenceTimeoutError` and `InferenceProviderError`. -/
inductive InferenceOutcome
  | success (emotions : List EmotionScore)
  | timeout
  | providerError (message : String)
deriving DecidableEq, Repr

/-- Whether an inference outcome is a per-chunk failure (timeout or provider
error). -/
def outcomeFailed : InferenceOutcome → Bool
  | .success _ => false
  | .timeout => true
  | .providerError _ => true

/-- The highest-scoring emotion of a provider response, ties broken in favour
of the emotion appearing first in the original response order (spec 4.3). -/
def topEmotionOf (es : List EmotionScore) : Option EmotionScore :=
  es.foldl (fun acc e =>
    match acc with
    | none => some e
    | some b => if e.score > b.score then some e else some b) none

/-- Modelled from the spec: building a non-failed `ChunkResult` from a
provider response (spec 4.3): the dominant sentiment is the sentiment of the
single highest-scoring emotion, and the sentiment score is the signed
magnitude of that top score (`+top` if positive, `-top` if negative, `0` if
neutral). -/
def classifyChunk (c : AudioChunk) (es : List EmotionScore) : ChunkResult :=
  match topEmotionOf es with
  | none => ⟨c.index, c.start, c.stop, es, .neutral, 0, false⟩
  | some top =>
    let s := emotionSentiment top.name
    let signed : ℚ :=
      match s with
      | .positive => top.score
      | .negative => -top.score
      | .neutral => 0
    ⟨c.index, c.start, c.stop, sortByDesc EmotionScore.score es, s, signed, false⟩

/-- The failed placeholder result for a chunk whose inference call timed out
or errored (spec 4.2): empty emotions, neutral sentiment, `failed = true`. -/
def failedChunkResult (c : AudioChunk) : ChunkResult :=
  ⟨c.index, c.start, c.stop, [], .neutral, 0, true⟩

/-- Modelled from the spec: the EmotionInferenceAdapter (spec 4.2).  It is a
total function: on timeout or provider error it returns a failed
`ChunkResult` rather than raising. -/
def analyzeChunk (o : InferenceOutcome) (c : AudioChunk) : ChunkResult :=
  match o with
  | .success es => classifyChunk c es
  | .timeout => failedChunkResult c
  | .providerError _ => failedChunkResult c

/-- Modelled from the spec: the fan-out of per-chunk inference over a chunk
list; `o i` is the outcome of the inference call for the chunk of index `i`.
Every chunk yields a result — a failure of one call never aborts the
analysis of the remaining chunks. -/
def runBatch (chunks : List AudioChunk) (o : ℕ → InferenceOutcome) : List ChunkResult :=
  chunks.map (fun c => analyzeChunk (o c.index) c)

/-- Request-level failures of the batch pipeline (spec 7): invalid input and
degenerate empty aggregation input are fatal to the request; per-chunk
failures never are. -/
inductive RequestError
  | invalidChunkDuration (d : ℚ)
  | invalidAudio
  | emptyTimeline
deriving DecidableEq, Repr

/-- The batch response shape of spec 6: file info, the complete timeline, and
the aggregation summary. -/
structure AnalysisResponse where
  total_duration : ℚ
  total_chunks : ℕ
  chunk_duration : ℚ
  timeline : List ChunkResult
  aggregation : AggregationSummary
deriving DecidableEq, Repr

/-- The chunk-duration options offered by the frontend selector, translated
from the `chunkDuration` select element of `TimeSeries.js` (lines 114-130):
exactly the two options 5 seconds and 10 seconds. -/
def chunkDurationOptions : List ℕ := [5, 10]

/-- Modelled from the spec: chunk-duration validation (spec 4.1) — the chunk
duration is configuration-enumerated to `{5s, 10s}`; any other value is
rejected with a validation error.  The backend validation source is not
shipped. -/
def validateChunkDuration (d : ℚ) : Bool := d == 5 || d == 10

/-- Modelled from the spec: the batch request pipeline (spec 2 and 6) —
validate the chunk duration, then chunk, then run per-chunk inference, then
aggregate.  The second component counts the inference calls performed, zero
when validation rejects the request before any chunking or inference. -/
def timeseriesRequest (L d : ℚ) (o : ℕ → InferenceOutcome) :
    Except RequestError AnalysisResponse × ℕ :=
  if !validateChunkDuration d then (.error (.invalidChunkDuration d), 0)
  else if L ≤ 0 then (.error .invalidAudio, 0)
  else
    let chunks := audioChunker L d
    let timeline := runBatch chunks o
    match aggregate timeline with
    | .error _ => (.error .emptyTimeline, chunks.length)
    | .ok agg => (.ok ⟨L, chunks.length, d, timeline, agg⟩, chunks.length)

/-- C5: For every chunk whose inference call times out or errors, the adapter
returns a `failed = true` ChunkResult instead of raising; the batch keeps
analysing the remaining chunks — the timeline has one entry per chunk, entry
`k` flagged failed exactly when the call for chunk `k` failed — and the
request still returns a successful (`.ok`) result carrying that timeline. -/
theorem c5_chunk_failures_absorbed (L d : ℚ) (o : ℕ → InferenceOutcome)
    (hd : validateChunkDuration d = true) (hdpos : 0 < d) (hL : 0 < L) :
    (∀ c : AudioChunk, outcomeFailed (o c.index) = true →
        (analyzeChunk (o c.index) c).failed = true)
    ∧ (runBatch (audioChunker L d) o).length = (audioChunker L d).length
    ∧ (∀ k (hk : k < (runBatch (audioChunker L d) o).length)
        (hk2 : k < (audioChunker L d).length),
        ((runBatch (audioChunker L d) o).get ⟨k, hk⟩).failed
          = outcomeFailed (o (((audioChunker L d).get ⟨k, hk2⟩).index)))
    ∧ ∃ resp, (timeseriesRequest L d o).1 = .ok resp
        ∧ resp.timeline = runBatch (audioChunker L d) o := by
  have habsorb : ∀ c : AudioChunk, outcomeFailed (o c.index) = true →
      (analyzeChunk (o c.index) c).failed = true := by
    intro c hfail
    cases ho : o c.index with
    | success es => rw [ho] at hfail; simp [outcomeFailed] at hfail
    | timeout => simp [analyzeChunk, ho, failedChunkResult]
    | providerError m => simp [analyzeChunk, ho, failedChunkResult]
  have hfl : ∀ (oc : InferenceOutcome) (c : AudioChunk),
      (analyzeChunk oc c).failed = outcomeFailed oc := by
    intro oc c
    cases oc with
    | success es =>
      simp only [analyzeChunk, outcomeFailed, classifyChunk]
      cases topEmotionOf es <;> simp
    | timeout => rfl
    | providerError m => rfl
  refine ⟨habsorb, by simp [runBatch], ?_, ?_⟩
  · intro k hk hk2
    simp only [runBatch, List.get_eq_getElem, List.getElem_map]
    exact hfl _ _
  · have hnil : (audioChunker L d).length ≠ 0 := by
      have := audioChunker_length_pos L d hL hdpos
      omega
    have htl : (runBatch (audioChunker L d) o).length ≠ 0 := by
      simpa [runBatch] using hnil
    have htl2 : runBatch (audioChunker L d) o ≠ [] := by
      intro h
      rw [h] at htl
      exact htl rfl
    obtain ⟨s, hs⟩ :
        ∃ s, aggregate (runBatch (audioChunker L d) o) = .ok s := by
      unfold aggregate
      rw [if_neg htl]
      by_cases hok : ((runBatch (audioChunker L d) o).filter (fun c => !c.failed)).length = 0
      · exact ⟨_, by rw [if_pos hok]⟩
      · exact ⟨_, by rw [if_neg hok]⟩
    refine ⟨⟨L, (audioChunker L d).length, d, runBatch (audioChunker L d) o, s⟩, ?_, rfl⟩
    simp only [timeseriesRequest, hd, Bool.not_true, Bool.false_eq_true, if_false,
      if_neg (not_le.mpr hL), hs]

/-- Witness for C5: a 12-second audio in 5-second chunks where every
inference call times out — the request still succeeds with a complete
timeline. -/
theorem c5_chunk_failures_absorbed_witness :
    (runBatch (audioChunker 12 5) (fun _ => InferenceOutcome.timeout)).length
        = (audioChunker 12 5).length
    ∧ ∃ resp, (timeseriesRequest 12 5 (fun _ => InferenceOutcome.timeout)).1 = .ok resp
        ∧ resp.timeline = runBatch (audioChunker 12 5) (fun _ => InferenceOutcome.timeout) := by
  have h := c5_chunk_failures_absorbed 12 5 (fun _ => InferenceOutcome.timeout)
    (by norm_num [validateChunkDuration]) (by norm_num) (by norm_num)
  exact ⟨h.2.1, h.2.2.2⟩

/-- C8: The chunk duration of an analysis request is accepted only when it is
exactly 5 or exactly 10 seconds — mirroring the two options of the frontend
selector — and every other value is rejected with a validation error with
zero inference calls performed, i.e. before any chunking or inference. -/
theorem c8_chunk_duration_validation (L d : ℚ) (o : ℕ → InferenceOutcome) :
    (validateChunkDuration d = true ↔ (d = 5 ∨ d = 10))
    ∧ (¬(d = 5 ∨ d = 10) →
        (timeseriesRequest L d o).1 = .error (.invalidChunkDuration d)
        ∧ (timeseriesRequest L d o).2 = 0)
    ∧ (∀ v ∈ chunkDurationOptions, validateChunkDuration (v : ℚ) = true) := by
  have hiff : validateChunkDuration d = true ↔ (d = 5 ∨ d = 10) := by
    unfold validateChunkDuration
    rw [Bool.or_eq_true, beq_iff_eq, beq_iff_eq]
  refine ⟨hiff, ?_, ?_⟩
  · intro hnot
    have hv : validateChunkDuration d = false := by
      rw [← Bool.not_eq_true, hiff]
      exact hnot
    constructor <;> simp [timeseriesRequest, hv]
  · intro v hv
    have hv2 : v = 5 ∨ v = 10 := by simpa [chunkDurationOptions] using hv
    rcases hv2 with h | h <;> subst h <;> rfl

/-- Witness for C8: chunk duration 7 is rejected with a validation error and
no inference calls. -/
theorem c8_chunk_duration_validation_witness :
    (timeseriesRequest 12 7 (fun _ => InferenceOutcome.timeout)).1
        = .error (.invalidChunkDuration 7)
    ∧ (timeseriesRequest 12 7 (fun _ => InferenceOutcome.timeout)).2 = 0 :=
  (c8_chunk_duration_validation 12 7 (fun _ => InferenceOutcome.timeout)).2.1
    (by norm_num)

/-! ## StreamingSessionManager (claim C6) -/

/-- The per-session protocol state of spec 4.7. -/
inductive SessionState
  | awaitingMetadata
  | buffering
  | analyzing
deriving DecidableEq, Repr

/-- One incoming frame of the streaming protocol (spec 6): a control frame
`{type: "metadata", sample_rate}` or `{type: "analyze"}`, or a raw binary
audio data frame. -/
inductive StreamFrame
  | binary (data : List ℕ)
  | metadata (sample_rate : ℕ)
  | analyzeReq
deriving DecidableEq, Repr

/-- A streaming session (spec data model): id, declared sample rate (absent
until metadata arrives), protocol state, and the append-only audio buffer. -/
structure StreamingSession where
  id : ℕ
  sample_rate : Option ℕ
  state : SessionState
  buffer : List ℕ
deriving DecidableEq, Repr

/-- The out-of-order streaming message failure of spec 7: fatal to that
message only, the session continues. -/
inductive StreamError
  | protocolSequenceError
deriving DecidableEq, Repr

/-- Modelled from the spec: the per-frame transition function of the
StreamingSessionManager (spec 4.7).  In `AWAITING_METADATA` only a metadata
control message is accepted (moving to `BUFFERING` with the declared sample
rate); any other frame fails with `ProtocolSequenceError` and the session is
returned unchanged.  In `BUFFERING` binary frames append to the buffer and an
analyze trigger moves to `ANALYZING`; re-entrant frames during `ANALYZING`
are rejected.  The backend session manager source is not shipped. -/
def handleFrame (s : StreamingSession) (f : StreamFrame) :
    StreamingSession × Option StreamError :=
  match s.state, f with
  | .awaitingMetadata, .metadata sr =>
      (⟨s.id, some sr, .buffering, s.buffer⟩, none)
  | .awaitingMetadata, _ => (s, some .protocolSequenceError)
  | .buffering, .binary data =>
      (⟨s.id, s.sample_rate, .buffering, s.buffer ++ data⟩, none)
  | .buffering, .analyzeReq =>
      (⟨s.id, s.sample_rate, .analyzing, s.buffer⟩, none)
  | .buffering, .metadata _ => (s, some .protocolSequenceError)
  | .analyzing, _ => (s, some .protocolSequenceError)

/-- C6: In a session in state `AWAITING_METADATA`, every binary audio frame
is rejected with `ProtocolSequenceError` and the session is returned exactly
as it was — same state, same buffer; an analyze trigger is likewise
rejected unchanged; a frame is accepted in this state exactly when it is a
metadata message declaring a sample rate. -/
theorem c6_awaiting_metadata_rejects_binary (s : StreamingSession)
    (h : s.state = .awaitingMetadata) :
    (∀ data, handleFrame s (.binary data) = (s, some .protocolSequenceError))
    ∧ handleFrame s .analyzeReq = (s, some .protocolSequenceError)
    ∧ (∀ f, (handleFrame s f).2 = none ↔ ∃ sr, f = .metadata sr) := by
  obtain ⟨i, sr, st, buf⟩ := s
  simp only at h
  subst h
  refine ⟨fun data => rfl, rfl, fun f => ?_⟩
  cases f with
  | binary data => simp [handleFrame]
  | metadata r => simp [handleFrame]
  | analyzeReq => simp [handleFrame]

/-- Witness for C6: a fresh session receiving a binary frame before any
metadata is rejected and left untouched. -/
theorem c6_awaiting_metadata_rejects_binary_witness :
    handleFrame ⟨0, none, .awaitingMetadata, []⟩ (.binary [1, 2, 3])
      = (⟨0, none, .awaitingMetadata, []⟩, some .protocolSequenceError) :=
  (c6_awaiting_metadata_rejects_binary ⟨0, none, .awaitingMetadata, []⟩ rfl).1 [1, 2, 3]

/-! ## RizzScoreEngine (claim C7) -/

/-- Clamp a value into `[lo, hi]`. -/
def clamp (lo hi x : ℚ) : ℚ := max lo (min hi x)

/-- The mean of a window of sentiment scores. -/
def windowMean (w : List ℚ) : ℚ := w.sum / (w.length : ℚ)

/-- Modelled from the spec: the RizzScoreEngine health-score formula (spec
4.6): `value = clamp(50 + mean(sentiment_score_i) * 50, 0, 100)`.  The
backend engine source is not shipped. -/
def rizzValue (w : List ℚ) : ℚ := clamp 0 100 (50 + windowMean w * 50)

/-- Modelled from the spec: pushing one classified sentiment score into the
fixed-capacity trailing window (spec 4.6): append, and evict the oldest entry
when past capacity (FIFO ring). -/
def pushWindow (cap : ℕ) (w : List ℚ) (x : ℚ) : List ℚ :=
  let w2 := w ++ [x]
  if cap < w2.length then w2.tail else w2

/-- The window the engine holds after feeding a whole input sequence into an
initially empty ring of capacity `cap`. -/
def windowAfter (cap : ℕ) (inputs : List ℚ) : List ℚ :=
  inputs.foldl (pushWindow cap) []

/-- Elements of a pushed window come from the old window or are the pushed
value. -/
lemma mem_pushWindow {cap : ℕ} {w : List ℚ} {x y : ℚ}
    (h : y ∈ pushWindow cap w x) : y ∈ w ∨ y = x := by
  unfold pushWindow at h
  by_cases hc : cap < (w ++ [x]).length
  · simp only [hc, if_true] at h
    have := List.mem_of_mem_tail h
    simpa using this
  · simp only [hc, if_false] at h
    simpa using h

/-- Elements of a folded window come from the seed window or the inputs. -/
lemma foldl_pushWindow_mem (cap : ℕ) (y : ℚ) :
    ∀ (inputs w : List ℚ), y ∈ inputs.foldl (pushWindow cap) w → y ∈ w ∨ y ∈ inputs := by
  intro inputs
  induction inputs with
  | nil => intro w hw; exact Or.inl hw
  | cons a t ih =>
    intro w hw
    rcases ih (pushWindow cap w a) hw with h2 | h2
    · rcases mem_pushWindow h2 with h3 | h3
      · exact Or.inl h3
      · exact Or.inr (by simp [h3])
    · exact Or.inr (by simp [h2])

/-- Window elements after any input sequence all come from the inputs. -/
lemma mem_windowAfter {cap : ℕ} {inputs : List ℚ} {y : ℚ}
    (h : y ∈ windowAfter cap inputs) : y ∈ inputs := by
  rcases foldl_pushWindow_mem cap y inputs [] h with h2 | h2
  · exact absurd h2 (List.not_mem_nil y)
  · exact h2

/-- Sum of a list bounded below elementwise. -/
lemma list_sum_ge (l : List ℚ) (b : ℚ) (h : ∀ x ∈ l, b ≤ x) :
    (l.length : ℚ) * b ≤ l.sum := by
  induction l with
  | nil => simp
  | cons a t ih =>
    simp only [List.sum_cons, List.length_cons]
    have h1 := h a (by simp)
    have h2 := ih (fun x hx => h x (by simp [hx]))
    push_cast
    nlinarith

/-- Sum of a list bounded above elementwise. -/
lemma list_sum_le (l : List ℚ) (b : ℚ) (h : ∀ x ∈ l, x ≤ b) :
    l.sum ≤ (l.length : ℚ) * b := by
  induction l with
  | nil => simp
  | cons a t ih =>
    simp only [List.sum_cons, List.length_cons]
    have h1 := h a (by simp)
    have h2 := ih (fun x hx => h x (by simp [hx]))
    push_cast
    nlinarith

/-- C7: For every non-empty window of sentiment scores each in `[-1, 1]`, the
health score equals `clamp(50 + mean * 50, 0, 100)` with the clamp a no-op
(the unclamped value already lies in `[0, 100]`), so the score is within
`[0, 100]`; the clamp keeps every window score within `[0, 100]`
unconditionally; and every window the ring-buffer engine can hold after any
input sequence with scores in `[-1, 1]` again has all entries in `[-1, 1]`,
so its score obeys the same bounds. -/
theorem c7_rizz_value_range :
    (∀ w : List ℚ, w ≠ [] → (∀ x ∈ w, -1 ≤ x ∧ x ≤ 1) →
      rizzValue w = 50 + windowMean w * 50
        ∧ 0 ≤ rizzValue w ∧ rizzValue w ≤ 100)
    ∧ (∀ w : List ℚ, 0 ≤ rizzValue w ∧ rizzValue w ≤ 100)
    ∧ (∀ (cap : ℕ) (inputs : List ℚ), (∀ x ∈ inputs, -1 ≤ x ∧ x ≤ 1) →
        ∀ y ∈ windowAfter cap inputs, -1 ≤ y ∧ y ≤ 1) := by
  refine ⟨?_, ?_, ?_⟩
  · intro w hne hbound
    have hlen : 0 < (w.length : ℚ) := by
      have : 0 < w.length := List.length_pos.mpr hne
      exact_mod_cast this
    have hlo := list_sum_ge w (-1) (fun x hx => (hbound x hx).1)
    have hhi := list_sum_le w 1 (fun x hx => (hbound x hx).2)
    have hm1 : -1 ≤ windowMean w := by
      rw [windowMean, le_div_iff₀ hlen]
      linarith
    have hm2 : windowMean w ≤ 1 := by
      rw [windowMean, div_le_iff₀ hlen]
      linarith
    have h0 : 0 ≤ 50 + windowMean w * 50 := by linarith
    have h100 : 50 + windowMean w * 50 ≤ 100 := by linarith
    have hid : rizzValue w = 50 + windowMean w * 50 := by
      rw [rizzValue, clamp, min_eq_right h100, max_eq_right h0]
    exact ⟨hid, by rw [hid]; exact h0, by rw [hid]; exact h100⟩
  · intro w
    constructor
    · exact le_max_left 0 _
    · rw [rizzValue, clamp]
      rcases le_total 100 (50 + windowMean w * 50) with h | h
      · rw [min_eq_left h]
        norm_num
      · rw [min_eq_right h]
        rcases le_total 0 (50 + windowMean w * 50) with h2 | h2
        · rw [max_eq_right h2]; exact h
        · rw [max_eq_left h2]; norm_num
  · intro cap inputs hbound y hy
    exact hbound y (mem_windowAfter hy)

/-- Witness for C7: the two-entry window `[1, -1/2]` (one strongly positive,
one mildly negative chunk) yields score `62.5`, inside `[0, 100]` with the
clamp a no-op. -/
theorem c7_rizz_value_range_witness :
    rizzValue [1, -1/2] = 50 + windowMean [1, -1/2] * 50
      ∧ 0 ≤ rizzValue [1, -1/2] ∧ rizzValue [1, -1/2] ≤ 100 :=
  c7_rizz_value_range.1 [1, -1/2] (List.cons_ne_nil _ _)
    (by intro x hx; rcases (by simpa using hx : x = 1 ∨ x = -1/2) with h | h <;>
      subst h <;> norm_num)

/-! ## Configuration page emotion thresholds (claim C9) -/

/-- The `selectedEmotions` React state of the Configuration component in
`Analytics.js`: a JavaScript object mapping emotion names to threshold
numbers, modelled as an association list in insertion order (JavaScript
string keys preserve insertion order). -/
abbrev ThresholdMap : Type := List (String × ℚ)

/-- Whether an emotion name is currently selected (present as a key),
translated from the `selectedEmotions[name] !== undefined` checks. -/
def hasEmotion (sel : ThresholdMap) (name : String) : Bool :=
  sel.any (fun p => p.1 == name)

/-- Translated from `handleEmotionToggle` in `Analytics.js` (lines 205-215):
if the emotion is present, delete its key; otherwise insert it with the
threshold value 0. -/
def handleEmotionToggle (name : String) (sel : ThresholdMap) : ThresholdMap :=
  if hasEmotion sel name then sel.filter (fun p => !(p.1 == name))
  else sel ++ [(name, 0)]

/-- Translated from `selectAll` in `Analytics.js` (lines 217-223): assign the
value 0 to every emotion of the fixed list. -/
def selectAll : ThresholdMap :=
  AVAILABLE_EMOTIONS.map (fun e => (e.name, 0))

/-- Translated from `clearAll` in `Analytics.js` (lines 225-227). -/
def clearAll : ThresholdMap := []

/-- The user-interface actions that mutate the `selectedEmotions` state. -/
inductive ConfigAction
  | toggle (name : String)
  | selectAllBtn
  | clearAllBtn
deriving DecidableEq, Repr

/-- Apply one Configuration page action to the selection state. -/
def applyConfigAction (sel : ThresholdMap) : ConfigAction → ThresholdMap
  | .toggle name => handleEmotionToggle name sel
  | .selectAllBtn => selectAll
  | .clearAllBtn => clearAll

/-- Translated from `saveConfig` in `Analytics.js` (lines 229-242): the
posted configuration body carries `emotion_thresholds: selectedEmotions`
unchanged. -/
def savedThresholds (sel : ThresholdMap) : ThresholdMap := sel

/-- Every threshold value in the map is exactly 0. -/
abbrev allZero (sel : ThresholdMap) : Prop := ∀ p ∈ sel, p.2 = 0

/-- Each single action preserves the all-zero threshold property, and
toggling an absent emotion on inserts it with value exactly 0. -/
lemma applyConfigAction_allZero (sel : ThresholdMap) (a : ConfigAction)
    (h : allZero sel) : allZero (applyConfigAction sel a) := by
  cases a with
  | toggle name =>
    simp only [applyConfigAction, handleEmotionToggle]
    by_cases hc : hasEmotion sel name
    · rw [if_pos hc]
      intro p hp
      exact h p (List.mem_of_mem_filter hp)
    · rw [if_neg hc]
      intro p hp
      rcases List.mem_append.mp hp with h2 | h2
      · exact h p h2
      · have : p = (name, 0) := by simpa using h2
        rw [this]
  | selectAllBtn =>
    intro p hp
    simp only [applyConfigAction, selectAll] at hp
    obtain ⟨e, _, hpe⟩ := List.mem_map.mp hp
    rw [← hpe]
  | clearAllBtn =>
    intro p hp
    simp [applyConfigAction, clearAll] at hp

/-- C9: Every emotion-thresholds map the Configuration page can save assigns
the value exactly 0 to each selected emotion: toggling an emotion on inserts
value 0, Select All assigns 0 to each of the 15 emotions of the fixed list,
and no sequence of user-interface actions starting from an all-zero state
(in particular the empty initial state) can put a nonzero threshold into the
posted configuration. -/
theorem c9_config_thresholds_zero (actions : List ConfigAction) (init : ThresholdMap)
    (hinit : allZero init) :
    allZero (savedThresholds (actions.foldl applyConfigAction init))
    ∧ (∀ name sel, hasEmotion sel name = false →
        handleEmotionToggle name sel = sel ++ [(name, 0)])
    ∧ (selectAll.map Prod.fst = AVAILABLE_EMOTIONS.map EmotionDef.name
        ∧ allZero selectAll) := by
  refine ⟨?_, ?_, ?_, ?_⟩
  · induction actions generalizing init with
    | nil => exact hinit
    | cons a t ih =>
      exact ih (applyConfigAction init a) (applyConfigAction_allZero init a hinit)
  · intro name sel hfalse
    simp only [handleEmotionToggle, hfalse]
    rfl
  · simp [selectAll]
  · intro p hp
    simp only [selectAll] at hp
    obtain ⟨e, _, hpe⟩ := List.mem_map.mp hp
    rw [← hpe]

/-- Witness for C9: toggling Joy on, selecting all, toggling Anger off, from
the empty initial state — the posted thresholds are all zero. -/
theorem c9_config_thresholds_zero_witness :
    allZero (savedThresholds
      ([ConfigAction.toggle "Joy", ConfigAction.selectAllBtn,
        ConfigAction.toggle "Anger"].foldl applyConfigAction []))
    ∧ (∀ name sel, hasEmotion sel name = false →
        handleEmotionToggle name sel = sel ++ [(name, 0)])
    ∧ (selectAll.map Prod.fst = AVAILABLE_EMOTIONS.map EmotionDef.name
        ∧ allZero selectAll) :=
  c9_config_thresholds_zero
    [ConfigAction.toggle "Joy", ConfigAction.selectAllBtn, ConfigAction.toggle "Anger"]
    [] (fun p hp => absurd hp (List.not_mem_nil p))

/-! ## Sentiment graph x-coordinates (claim C10) -/

/-- Translated from the sentiment-graph SVG of `TimeSeries.js` (lines
288-314): the x-coordinate of point `idx` of a timeline of length `len` is
`(idx / (len - 1)) * 1000`, computed in JavaScript number arithmetic.  A
non-finite result (the `0/0 = NaN` arising when `len = 1`) is modelled as
`none`; the subtraction and division are exact in `ℚ` otherwise. -/
def sentimentGraphX (len idx : ℕ) : Option ℚ :=
  if (len : ℚ) - 1 = 0 then none
  else some (((idx : ℚ) / ((len : ℚ) - 1)) * 1000)

/-- C10 counterexample: the claim fails on a single-chunk timeline — a
non-empty timeline shape the backend produces for any audio no longer than
one chunk duration.  At `len = 1`, `idx = 0` the code computes
`(0 / 0) * 1000 = NaN`, which is not a finite coordinate. -/
theorem c10_counterexample :
    [(⟨0, 0, 5, [], Sentiment.neutral, 0, false⟩ : ChunkResult)] ≠ []
    ∧ sentimentGraphX
        [(⟨0, 0, 5, [], Sentiment.neutral, 0, false⟩ : ChunkResult)].length 0 = none := by
  constructor
  · exact List.cons_ne_nil _ _
  · simp [sentimentGraphX]

/-- C10 (amended): for every timeline with at least two points, every point
index below the length gets a finite x-coordinate, equal to
`(idx / (len - 1)) * 1000` and lying within the `[0, 1000]` view box. -/
theorem c10_sentiment_graph_x_finite (len idx : ℕ) (h2 : 2 ≤ len) (hidx : idx < len) :
    sentimentGraphX len idx
        = some (((idx : ℚ) / ((len : ℚ) - 1)) * 1000)
      ∧ ∀ q, sentimentGraphX len idx = some q → 0 ≤ q ∧ q ≤ 1000 := by
  have hden : (len : ℚ) - 1 ≠ 0 := by
    have : (2 : ℚ) ≤ (len : ℚ) := by exact_mod_cast h2
    intro hzero
    have : (len : ℚ) = 1 := by linarith
    linarith
  have hval : sentimentGraphX len idx
      = some (((idx : ℚ) / ((len : ℚ) - 1)) * 1000) := by
    rw [sentimentGraphX, if_neg hden]
  refine ⟨hval, ?_⟩
  intro q hq
  rw [hval] at hq
  have hq2 : q = ((idx : ℚ) / ((len : ℚ) - 1)) * 1000 := by
    exact (Option.some.injEq _ _).mp hq.symm
  have hdenpos : 0 < (len : ℚ) - 1 := by
    have : (2 : ℚ) ≤ (len : ℚ) := by exact_mod_cast h2
    linarith
  have hidxle : (idx : ℚ) ≤ (len : ℚ) - 1 := by
    have : idx + 1 ≤ len := hidx
    have := Nat.cast_le (α := ℚ) |>.mpr this
    push_cast at this
    linarith
  have hfrac0 : 0 ≤ (idx : ℚ) / ((len : ℚ) - 1) := by
    apply div_nonneg (by positivity) hdenpos.le
  have hfrac1 : (idx : ℚ) / ((len : ℚ) - 1) ≤ 1 := by
    rw [div_le_one hdenpos]
    exact hidxle
  constructor
  · rw [hq2]; nlinarith
  · rw [hq2]; nlinarith

/-- Witness for the amended C10: a three-point timeline places its middle
point at x = 500. -/
theorem c10_sentiment_graph_x_finite_witness :
    sentimentGraphX 3 1 = some (((1 : ℚ) / ((3 : ℚ) - 1)) * 1000)
      ∧ ∀ q, sentimentGraphX 3 1 = some q → 0 ≤ q ∧ q ≤ 1000 := by
  have h := c10_sentiment_graph_x_finite 3 1 (by norm_num) (by norm_num)
  constructor
  · rw [h.1]
    norm_num
  · exact h.2

end VoiceEdgeEval
